import Mathlib

/-!
Shallow embedding of the news-ingestion pipeline in
`src/backend/ai_news_process.py`: feed fetching with a time-window cutoff,
keyword topic classification with full-text fallback, Jaccard-based
near-duplicate suppression, and record building with word-boundary
truncation.  Strings are modelled as lists of characters (Python `len`,
slicing and `in` all operate on code points, as `List Char` does here).
External libraries (feedparser, trafilatura, `html.unescape`, `urlparse`,
`isoformat`) are modelled as oracle parameters: the pipeline's own logic is
translated from the source, the library calls are opaque function arguments.
-/

/-- Python strings, as lists of Unicode code points. -/
abbrev Str := List Char

/-- Whitespace as recognised by Python `str.strip` and the regex class
backslash-s: space, tab, newline, carriage return, vertical tab, form feed
(restricted to the ASCII range actually exercised by the pipeline). -/
def isSpaceCh (c : Char) : Bool :=
  c.isWhitespace || c = '\x0b' || c = '\x0c'

/-- Python `str.strip()`: drop whitespace from both ends. -/
def strip (s : Str) : Str :=
  ((s.dropWhile isSpaceCh).reverse.dropWhile isSpaceCh).reverse

/-- Python `str.lower()` restricted to the character ranges the pipeline
matches on: ASCII letters and the Cyrillic range of the keyword list. -/
def lowerChar (c : Char) : Char :=
  if 65 ≤ c.toNat ∧ c.toNat ≤ 90 then Char.ofNat (c.toNat + 32)
  else if 1040 ≤ c.toNat ∧ c.toNat ≤ 1071 then Char.ofNat (c.toNat + 32)
  else if c.toNat = 1025 then Char.ofNat 1105
  else c

/-- Lower-case a whole string. -/
def lowerStr (s : Str) : Str := s.map lowerChar

/-- Module constant `MAX_TEXT_PER_ITEM` (the 1500-character display cap). -/
def MAX_TEXT_PER_ITEM : Nat := 1500

/-- Module constant `SIMPLE_DUP_JACCARD` (the 0.7 similarity threshold). -/
def SIMPLE_DUP_JACCARD : ℚ := 7 / 10

/-- Module constant `AI_KEYWORDS`, verbatim from the source (including the
duplicated "llm" entry). -/
def AI_KEYWORDS : List Str :=
  [("искусственный интеллект" : String).data, ("нейросет" : String).data,
   ("дз" : String).data, ("машинное обучение" : String).data,
   ("глубокое обучение" : String).data,
   ("большая языковая модель" : String).data, ("llm" : String).data,
   ("модель" : String).data, ("генеративн" : String).data,
   ("ai" : String).data, ("artificial intelligence" : String).data,
   ("neural" : String).data, ("machine learning" : String).data,
   ("deep learning" : String).data, ("large language model" : String).data,
   ("generative" : String).data, ("foundation model" : String).data,
   ("llm" : String).data]

/-- Does `needle` occur as a prefix of `hay`? -/
def startsWith : Str → Str → Bool
  | [], _ => true
  | _ :: _, [] => false
  | a :: as, b :: bs => a = b && startsWith as bs

/-- Python substring membership `needle in hay`: `needle` occurs as a
contiguous run somewhere in `hay`. -/
def isSubstr (needle : Str) : Str → Bool
  | [] => decide (needle = [])
  | c :: cs => startsWith needle (c :: cs) || isSubstr needle cs

/-- `is_ai_related`: lower-case the text and test each keyword as a
contiguous substring (Python `k in t`). -/
def isAiRelated (s : Str) : Bool :=
  AI_KEYWORDS.any (fun k => isSubstr k (lowerStr s))

/-- Split a string at its first closing angle bracket, returning the part
before it and the part after it, or `none` when there is none. -/
def splitFirstGt : Str → Option (Str × Str)
  | [] => none
  | c :: cs =>
      if c = '>' then some ([], cs)
      else (splitFirstGt cs).map (fun p => (c :: p.1, p.2))

theorem splitFirstGt_length :
    ∀ (l before after : Str), splitFirstGt l = some (before, after) →
      before.length + after.length + 1 = l.length := by
  intro l
  induction l with
  | nil => intro before after h; simp [splitFirstGt] at h
  | cons c cs ih =>
      intro before after h
      by_cases hc : c = '>'
      · simp [splitFirstGt, hc] at h
        simp [← h.1, ← h.2, List.length]
      · rw [splitFirstGt, if_neg hc] at h
        cases hsplit : splitFirstGt cs with
        | none => rw [hsplit] at h; simp [Option.map] at h
        | some p =>
            rw [hsplit] at h
            simp [Option.map] at h
            have := ih p.1 p.2 (by rw [hsplit])
            rw [← h.1, ← h.2] at *
            simp [List.length] at this ⊢
            omega

/-- The tag-stripping substitution `re.sub(r"<[^>]+>", " ", t)`: a `<`
followed by at least one non-`>` character and then a `>` is replaced by a
single space; everything else is copied through. -/
def removeTags : Str → Str
  | [] => []
  | c :: cs =>
      if c = '<' then
        match h : splitFirstGt cs with
        | some (before, after) =>
            if before = [] then c :: removeTags cs else ' ' :: removeTags after
        | none => c :: removeTags cs
      else c :: removeTags cs
termination_by l => l.length
decreasing_by
  · simp_wf
  · simp_wf
    have := splitFirstGt_length cs before after h
    omega
  · simp_wf
  · simp_wf

/-- The whitespace-collapsing substitution `re.sub(r"\s+", " ", t)`: each
maximal whitespace run becomes one space.  The boolean records whether the
previous character was part of a whitespace run. -/
def collapseGo : Bool → Str → Str
  | _, [] => []
  | prevSp, c :: cs =>
      if isSpaceCh c then
        if prevSp then collapseGo true cs else ' ' :: collapseGo true cs
      else c :: collapseGo false cs

/-- `clean_text`: strip markup tags, collapse whitespace, trim the ends. -/
def cleanText (t : Str) : Str :=
  strip (collapseGo false (removeTags t))

/-- The state of one timestamp attribute (`published_parsed` /
`updated_parsed`) on a feed entry: missing or falsy, present but failing to
convert to a datetime, or successfully parsed to an instant. -/
inductive TimeField where
  | absent
  | invalid
  | valid (t : Int)
deriving DecidableEq

/-- One raw entry as handed over by the feed parser.  A missing `link` or
`title` attribute is modelled by the empty string, exactly as Python
truthiness treats it. -/
structure FeedEntry where
  link : Str
  title : Str
  published : TimeField
  updated : TimeField
  summary : Str
deriving DecidableEq

/-- The timestamp-derivation loop of `fetch_entries`: try
`published_parsed` then `updated_parsed`; the first that parses wins;
otherwise no date. -/
def deriveDate : TimeField → TimeField → Option Int
  | TimeField.valid t, _ => some t
  | _, TimeField.valid t => some t
  | _, _ => none

/-- One pipeline item (the dict built by `fetch_entries`; the `text` key,
absent until `filter_ai` sets it, is modelled by the empty string, which
Python truthiness treats identically everywhere the key is read). -/
structure Item where
  title : Str
  link : Str
  source : Str
  summary : Str
  text : Str
  date : Option Str
deriving DecidableEq

/-- The per-entry body of the `fetch_entries` loop: drop entries lacking a
link or title, derive the date, drop dated entries older than the cutoff,
and build the item dict.  `unescape`, `isofmt` and `netloc` are oracles for
`html.unescape`, `datetime.isoformat` and `urlparse(...).netloc`. -/
def processEntry (unescape : Str → Str) (isofmt : Int → Str)
    (netloc : Str → Str) (cutoff : Int) (e : FeedEntry) : Option Item :=
  if e.link = [] ∨ e.title = [] then none
  else
    match deriveDate e.published e.updated with
    | some d =>
        if d < cutoff then none
        else some ⟨strip e.title, strip e.link, netloc e.link,
                   cleanText (unescape e.summary), [], some (isofmt d)⟩
    | none => some ⟨strip e.title, strip e.link, netloc e.link,
                    cleanText (unescape e.summary), [], none⟩

/-- `fetch_entries`: walk the configured feeds in order; a feed whose parse
raises is skipped (`except Exception: continue`); each surviving entry is
processed by `processEntry`. -/
def fetchEntries (unescape : Str → Str) (isofmt : Int → Str)
    (netloc : Str → Str) (cutoff : Int)
    (feeds : List (Except Unit (List FeedEntry))) : List Item :=
  feeds.foldr
    (fun f acc =>
      (match f with
       | Except.error _ => []
       | Except.ok es => es.filterMap (processEntry unescape isofmt netloc cutoff)) ++ acc)
    []

/-- `fetch_article_text`: fetch the page and extract its main text, with the
whole body wrapped in `try/except` returning the empty string.  `fetchUrl`
and `extractFn` are oracles for `trafilatura.fetch_url` and
`trafilatura.extract`; `Except.error` models a raised exception, `none`
models a `None` result. -/
def fetchArticleText (fetchUrl : Str → Except Unit (Option Str))
    (extractFn : Str → Except Unit (Option Str)) (url : Str) : Str :=
  match fetchUrl url with
  | Except.error _ => []
  | Except.ok none => []
  | Except.ok (some doc) =>
      if doc = [] then []
      else
        match extractFn doc with
        | Except.error _ => []
        | Except.ok o => cleanText (o.getD [])

/-- The per-item decision of `filter_ai`: when the cheap
`title + " " + summary` check matches, accept at once and store the fetched
full text; otherwise fetch the full text and keep the item only when the
text is non-empty and `title + " " + fullText` matches. -/
def classify (extract : Str → Str) (it : Item) : Option Item :=
  let basis := strip (it.title ++ ' ' :: it.summary)
  if isAiRelated basis then some { it with text := extract it.link }
  else
    let full := extract it.link
    if full = [] ∨ isAiRelated (it.title ++ ' ' :: full) = false then none
    else some { it with text := full }

/-- `filter_ai` without its throttling sleeps: the kept items in order. -/
def filterAI (extract : Str → Str) (items : List Item) : List Item :=
  items.filterMap (classify extract)

/-- The number of `time.sleep(SLEEP_BETWEEN)` calls `filter_ai` executes on
the given input: the sleep sits after `out.append(it)`, so it runs exactly
when the current item is kept (the `continue` on a dropped item skips it). -/
def filterAISleeps (extract : Str → Str) : List Item → Nat
  | [] => 0
  | it :: rest =>
      (if (classify extract it).isSome then 1 else 0) + filterAISleeps extract rest

/-- The token scanner behind `WORD_RE.findall`: accumulate the current run
of word characters (reversed) and emit each maximal run. -/
def tokenizeGo (isWd : Char → Bool) (cur : Str) : Str → List Str
  | [] => if cur = [] then [] else [cur.reverse]
  | c :: cs =>
      if isWd c then tokenizeGo isWd (c :: cur) cs
      else if cur = [] then tokenizeGo isWd [] cs
      else cur.reverse :: tokenizeGo isWd [] cs

/-- The character class of `WORD_RE`: `[A-Za-zА-Яа-яЁё0-9]` (the two
Cyrillic case ranges are the contiguous block U+0410..U+044F). -/
def isWordChar (c : Char) : Bool :=
  decide ((65 ≤ c.toNat ∧ c.toNat ≤ 90) ∨ (97 ≤ c.toNat ∧ c.toNat ≤ 122) ∨
          (48 ≤ c.toNat ∧ c.toNat ≤ 57) ∨ (1040 ≤ c.toNat ∧ c.toNat ≤ 1103) ∨
          c.toNat = 1025 ∨ c.toNat = 1105)

/-- `WORD_RE.findall(s)`: the maximal word-character runs of length ≥ 2
(a `{2,}` quantifier never matches inside a longer run, so the regex finds
exactly the maximal runs that are long enough). -/
def wordRuns (s : Str) : List Str :=
  (tokenizeGo isWordChar [] s).filter (fun t => 2 ≤ t.length)

/-- `normalize_words`: the set of word tokens of the lower-cased string. -/
def normalizeWords (s : Str) : Finset Str :=
  (wordRuns (lowerStr s)).toFinset

/-- `jaccard`: 0 when either set is empty, otherwise intersection size over
union size (the Python float compare against 0.7 coincides with the exact
rational compare at every realisable set size). -/
def jaccard (a b : Finset Str) : ℚ :=
  if a = ∅ ∨ b = ∅ then 0
  else ((a ∩ b).card : ℚ) / ((a ∪ b).card : ℚ)

/-- The signature `simple_dedup` computes for an item:
`title + " " + (text or summary)` tokenised. -/
def signatureOf (it : Item) : Finset Str :=
  normalizeWords (it.title ++ ' ' :: (if it.text = [] then it.summary else it.text))

/-- The `simple_dedup` loop, carrying the signatures of the kept items
(`sigs`): an item is skipped when some kept signature reaches the
threshold, otherwise it is kept and its signature appended. -/
def dedupGo (sigs : List (Finset Str)) : List Item → List Item
  | [] => []
  | it :: rest =>
      let sig := signatureOf it
      if sigs.any (fun sj => decide (SIMPLE_DUP_JACCARD ≤ jaccard sig sj)) then
        dedupGo sigs rest
      else it :: dedupGo (sigs ++ [sig]) rest

/-- `simple_dedup`. -/
def simpleDedup (items : List Item) : List Item := dedupGo [] items

/-- Modelled from the spec wording of §4.5 for comparison with the code:
walk the items keeping the already-kept items themselves, and keep an item
only when its Jaccard similarity against every already-kept item's
signature is strictly below the threshold. -/
def specDedupGo (kept : List Item) : List Item → List Item
  | [] => []
  | it :: rest =>
      if kept.all (fun k => decide (jaccard (signatureOf it) (signatureOf k) < SIMPLE_DUP_JACCARD)) then
        it :: specDedupGo (kept ++ [it]) rest
      else specDedupGo kept rest

/-- Modelled from the spec wording of §4.5: the near-duplicate filter as
the spec describes it. -/
def specDedup (items : List Item) : List Item := specDedupGo [] items

/-- Python `text[:MAX].rsplit(" ", 1)[0]` as used in `to_triplets`:
everything strictly before the last space, or the whole string when it has
no space. -/
def rsplitLast1 (p : Str) : Str :=
  if p.contains ' ' then ((p.reverse.dropWhile (fun c => c != ' ')).drop 1).reverse
  else p

/-- The text-selection priority chain of `to_triplets`. -/
def selectText (it : Item) : Str :=
  let title := strip it.title
  let summary := strip it.summary
  let full := strip it.text
  if title ≠ [] ∧ summary ≠ [] then title ++ (" — " : String).data ++ summary
  else if title ≠ [] then title
  else if full ≠ [] then full.take MAX_TEXT_PER_ITEM
  else it.link

/-- The truncation step of `to_triplets`: when the text exceeds the cap,
keep the cap-length prefix up to its last space and append an ellipsis. -/
def truncateText (t : Str) : Str :=
  if MAX_TEXT_PER_ITEM < t.length then
    rsplitLast1 (t.take MAX_TEXT_PER_ITEM) ++ [('…' : Char)]
  else t

/-- One output record `[текст, ссылка, дата]`. -/
structure Triple where
  text : Str
  url : Str
  date : Option Str
deriving DecidableEq

/-- `to_triplets`. -/
def toTriplets (items : List Item) : List Triple :=
  items.map (fun it => ⟨truncateText (selectText it), it.link, it.date⟩)

/-- The stage composition of `main` downstream of `fetch_entries`,
parameterised by the article-extraction oracle and the fetched raw items
(the two early returns print an empty JSON list, modelled as `[]`). -/
def pipelineRun (extract : Str → Str) (raw : List Item) : List Triple :=
  if raw = [] then []
  else
    let ai := filterAI extract raw
    if ai = [] then [] else toTriplets (simpleDedup ai)

/-- Pointwise: testing `threshold ≤ x` is the negation of testing
`x < threshold`. -/
theorem decide_le_eq_not_decide_lt (x y : ℚ) :
    decide (x ≤ y) = !decide (y < x) := by
  rw [← decide_not]
  exact decide_eq_decide.mpr not_lt.symm

/-- The blocking test of `dedupGo` over the mapped signatures is the
negation of the keeping test of `specDedupGo` over the kept items. -/
theorem any_ge_eq_not_all_lt (s : Finset Str) (kept : List Item) :
    (kept.map signatureOf).any
        (fun sj => decide (SIMPLE_DUP_JACCARD ≤ jaccard s sj)) =
      !(kept.all
        (fun k => decide (jaccard s (signatureOf k) < SIMPLE_DUP_JACCARD))) := by
  induction kept with
  | nil => rfl
  | cons k ks ih =>
      simp only [List.map_cons, List.any_cons, List.all_cons, Bool.not_and]
      rw [decide_le_eq_not_decide_lt, ih]

/-- The code's accumulator of kept signatures tracks exactly the signatures
of the kept items: `dedupGo` refines the spec-worded `specDedupGo`. -/
theorem dedupGo_eq_specDedupGo :
    ∀ (items kept : List Item),
      dedupGo (kept.map signatureOf) items = specDedupGo kept items := by
  intro items
  induction items with
  | nil => intro kept; rfl
  | cons it rest ih =>
      intro kept
      rw [dedupGo, specDedupGo, any_ge_eq_not_all_lt]
      by_cases hall : kept.all
          (fun k => decide (jaccard (signatureOf it) (signatureOf k) < SIMPLE_DUP_JACCARD)) = true
      · rw [hall]
        have hmap : kept.map signatureOf ++ [signatureOf it] =
            (kept ++ [it]).map signatureOf := by simp
        simp only [Bool.not_true, Bool.false_eq_true, if_false, if_true, hmap]
        exact congrArg (it :: ·) (ih (kept ++ [it]))
      · rw [Bool.eq_false_iff.mpr hall]
        simp only [Bool.not_false, Bool.false_eq_true, if_true, if_false]
        exact ih kept

/-- Claim C2: `simple_dedup` walks the items in encounter order and keeps an
item exactly when the Jaccard similarity of its signature (lower-cased
alphanumeric tokens of length ≥ 2 from `title + " " + (text or summary)`)
against every already-kept item's signature is strictly below 0.7, and any
comparison involving an empty token set yields similarity 0. -/
theorem c2_dedup_matches_spec :
    (∀ items : List Item, simpleDedup items = specDedup items) ∧
    (∀ b : Finset Str, jaccard ∅ b = 0) ∧
    (∀ a : Finset Str, jaccard a ∅ = 0) := by
  refine ⟨?_, ?_, ?_⟩
  · intro items
    have h := dedupGo_eq_specDedupGo items []
    simpa [simpleDedup, specDedup] using h
  · intro b; simp [jaccard]
  · intro a; simp [jaccard]

/-- Claim C6 counterexample input: an item with no keyword anywhere and an
extractor returning no text. -/
def c6Item : Item :=
  ⟨("погода" : String).data, ("http://w.test/1" : String).data, [], [], [], none⟩

/-- Claim C6 counterexample: on a one-item input whose item is dropped,
`filter_ai` performs 0 pauses although it processed 1 item, refuting
"the number of pauses equals the number of items processed". -/
theorem c6_pause_counterexample :
    filterAISleeps (fun _ => []) [c6Item] = 0 ∧
      ([c6Item] : List Item).length = 1 := by
  constructor
  · decide
  · rfl

/-- Claim C6 as amended: the sleep sits after the `continue` of the drop
path, so `filter_ai` pauses exactly once per item it keeps, not once per
item it processes. -/
theorem c6_pause_count (extract : Str → Str) (items : List Item) :
    filterAISleeps extract items = (filterAI extract items).length := by
  induction items with
  | nil => rfl
  | cons it rest ih =>
      cases hc : classify extract it with
      | none => simp [filterAISleeps, filterAI, List.filterMap_cons, hc, ih]
      | some b =>
          simp [filterAISleeps, filterAI, List.filterMap_cons, hc, ih]
          omega

/-- Claim C8: the pipeline downstream of fetching is a pure function of the
fetched items and the article-extraction results: two runs on identical
inputs produce identical record sequences. -/
theorem c8_pipeline_deterministic (ex1 ex2 : Str → Str)
    (raw1 raw2 : List Item) (hex : ex1 = ex2) (hraw : raw1 = raw2) :
    pipelineRun ex1 raw1 = pipelineRun ex2 raw2 := by
  subst hex; subst hraw; rfl

/-- Claim C8 witness: two concrete identical runs coincide. -/
theorem c8_pipeline_deterministic_witness :
    pipelineRun (fun _ => []) [] = pipelineRun (fun _ => []) [] :=
  c8_pipeline_deterministic _ _ _ _ rfl rfl

/-- Claim C10: the first item of a non-empty input is always kept by
`simple_dedup` (it is checked against an empty signature list), so a
non-empty input yields a non-empty output. -/
theorem c10_first_item_kept (items : List Item) (h : items ≠ []) :
    (simpleDedup items).head? = items.head? ∧ simpleDedup items ≠ [] := by
  cases items with
  | nil => exact absurd rfl h
  | cons it rest =>
      have hstep : simpleDedup (it :: rest) = it :: dedupGo [signatureOf it] rest := by
        simp [simpleDedup, dedupGo]
      rw [hstep]
      exact ⟨rfl, List.cons_ne_nil _ _⟩

/-- Claim C3: among entries that reach the window check (which in the
source happens only after the link/title presence check), a dated entry
strictly older than the cutoff is dropped and an entry whose timestamp is
missing or unparseable is always kept, with a null date on the built item. -/
theorem c3_window_filter (u : Str → Str) (iso : Int → Str) (nl : Str → Str)
    (cutoff : Int) (e : FeedEntry) (hl : e.link ≠ []) (ht : e.title ≠ []) :
    (∀ d : Int, deriveDate e.published e.updated = some d → d < cutoff →
        processEntry u iso nl cutoff e = none) ∧
    (deriveDate e.published e.updated = none →
        ∃ it : Item, processEntry u iso nl cutoff e = some it ∧ it.date = none) := by
  constructor
  · intro d hd hlt
    simp [processEntry, hl, ht, hd, hlt]
  · intro hnone
    refine ⟨⟨strip e.title, strip e.link, nl e.link,
             cleanText (u e.summary), [], none⟩, ?_, rfl⟩
    simp [processEntry, hl, ht, hnone]

/-- Claim C3 witness input: a dated entry older than the cutoff. -/
def c3Entry : FeedEntry :=
  ⟨("http://a.test/x" : String).data, ("t" : String).data,
   TimeField.valid 0, TimeField.absent, []⟩

/-- Claim C3 witness: the concrete dated entry older than the cutoff is
dropped. -/
theorem c3_window_filter_witness :
    processEntry (fun s => s) (fun _ => []) (fun s => s) 5 c3Entry = none :=
  (c3_window_filter (fun s => s) (fun _ => []) (fun s => s) 5 c3Entry
    (by decide) (by decide)).1 0 (by decide) (by decide)

/-- Claim C4: when the lower-cased `title + " " + summary` basis contains a
keyword, the item is accepted at once and its text field is set to the
extraction result without re-checking it; otherwise the item is kept
exactly when extraction is non-empty and `title + " " + fullText` contains
a keyword. -/
theorem c4_topic_classifier (extract : Str → Str) (it : Item) :
    (isAiRelated (strip (it.title ++ ' ' :: it.summary)) = true →
        classify extract it = some { it with text := extract it.link }) ∧
    (isAiRelated (strip (it.title ++ ' ' :: it.summary)) = false →
        ((classify extract it).isSome = true ↔
          extract it.link ≠ [] ∧
            isAiRelated (it.title ++ ' ' :: extract it.link) = true)) := by
  constructor
  · intro h
    simp [classify, h]
  · intro h
    simp only [classify, h, Bool.false_eq_true, if_false]
    by_cases h1 : extract it.link = []
    · simp [h1]
    · by_cases h2 : isAiRelated (it.title ++ ' ' :: extract it.link) = true
      · simp [h1, h2]
      · simp [h1, h2, Bool.eq_false_iff.mpr h2]

/-- Claim C4 witness input: an item whose title contains the keyword "ai". -/
def c4Item : Item :=
  ⟨("AI news" : String).data, ("http://a.test/1" : String).data, [], [], [], none⟩

/-- Claim C4 witness: the keyword item is accepted immediately with its
text set to the extraction result. -/
theorem c4_topic_classifier_witness :
    classify (fun _ => ("body" : String).data) c4Item =
      some { c4Item with text := ("body" : String).data } :=
  (c4_topic_classifier (fun _ => ("body" : String).data) c4Item).1 (by decide)

/-- Claim C5: the record text is chosen by the priority
title-plus-summary, title, capped full text, bare URL; the record url is
the item's link and its date passes through unchanged. -/
theorem c5_record_builder (it : Item) :
    (toTriplets [it] = [⟨truncateText (selectText it), it.link, it.date⟩]) ∧
    (strip it.title ≠ [] → strip it.summary ≠ [] →
        selectText it = strip it.title ++ (" — " : String).data ++ strip it.summary) ∧
    (strip it.title ≠ [] → strip it.summary = [] → selectText it = strip it.title) ∧
    (strip it.title = [] → strip it.text ≠ [] →
        selectText it = (strip it.text).take MAX_TEXT_PER_ITEM) ∧
    (strip it.title = [] → strip it.text = [] → selectText it = it.link) := by
  refine ⟨rfl, ?_, ?_, ?_, ?_⟩ <;> intro h1 h2 <;> simp [selectText, h1, h2]

/-- Claim C5 witness input: the spec's Record Builder example. -/
def c5Item : Item :=
  ⟨("AI breakthrough" : String).data, ("http://x.test/1" : String).data, [],
   ("New model released" : String).data, [],
   some ("2024-01-01T00:00:00+00:00" : String).data⟩

/-- Claim C5 witness: on the spec's example the title-plus-summary branch
fires and the record carries the link and date through. -/
theorem c5_record_builder_witness :
    selectText c5Item = strip c5Item.title ++ (" — " : String).data ++ strip c5Item.summary ∧
    toTriplets [c5Item] = [⟨truncateText (selectText c5Item), c5Item.link, c5Item.date⟩] :=
  ⟨(c5_record_builder c5Item).2.1 (by decide) (by decide), (c5_record_builder c5Item).1⟩

/-- Claim C7: a fetch failure, an empty fetch result, or an extraction
failure each yield the empty string from `fetch_article_text`, and a feed
whose parse raises contributes nothing to `fetch_entries` while the other
feeds are processed unchanged. -/
theorem c7_failure_tolerance :
    (∀ (fo eo : Str → Except Unit (Option Str)) (url : Str),
        fo url = Except.error () → fetchArticleText fo eo url = []) ∧
    (∀ (fo eo : Str → Except Unit (Option Str)) (url : Str),
        fo url = Except.ok none → fetchArticleText fo eo url = []) ∧
    (∀ (fo eo : Str → Except Unit (Option Str)) (url doc : Str),
        fo url = Except.ok (some doc) → eo doc = Except.error () →
        fetchArticleText fo eo url = []) ∧
    (∀ (u : Str → Str) (i : Int → Str) (n : Str → Str) (cutoff : Int)
        (fs1 fs2 : List (Except Unit (List FeedEntry))),
        fetchEntries u i n cutoff (fs1 ++ Except.error () :: fs2) =
          fetchEntries u i n cutoff (fs1 ++ fs2)) := by
  refine ⟨?_, ?_, ?_, ?_⟩
  · intro fo eo url h
    simp [fetchArticleText, h]
  · intro fo eo url h
    simp [fetchArticleText, h]
  · intro fo eo url doc h1 h2
    by_cases hd : doc = []
    · simp [fetchArticleText, h1, hd]
    · simp [fetchArticleText, h1, hd, h2]
  · intro u i n cutoff fs1 fs2
    simp [fetchEntries, List.foldr_append]

/-- Claim C7 witness: a concrete failing fetch yields the empty string. -/
theorem c7_failure_tolerance_witness :
    fetchArticleText (fun _ => Except.error ()) (fun _ => Except.ok none)
      (("u" : String).data) = [] :=
  c7_failure_tolerance.1 _ _ _ rfl

/-- Jaccard similarity is symmetric. -/
theorem jaccard_comm (a b : Finset Str) : jaccard a b = jaccard b a := by
  by_cases ha : a = ∅
  · by_cases hb : b = ∅ <;> simp [jaccard, ha, hb]
  · by_cases hb : b = ∅
    · simp [jaccard, ha, hb]
    · simp [jaccard, ha, hb, Finset.inter_comm, Finset.union_comm]

/-- A false blocking test means every accumulated signature is strictly
below the threshold. -/
theorem any_ge_false_forall {sigs : List (Finset Str)} {s : Finset Str}
    (h : sigs.any (fun sj => decide (SIMPLE_DUP_JACCARD ≤ jaccard s sj)) = false) :
    ∀ sj ∈ sigs, jaccard s sj < SIMPLE_DUP_JACCARD := by
  intro sj hsj
  rw [List.any_eq_false] at h
  have hne := h sj hsj
  simp only [decide_eq_true_eq] at hne
  exact lt_of_not_le hne

/-- Invariant of the dedup loop: every emitted item is dissimilar to every
accumulated signature, and the emitted list is pairwise dissimilar. -/
theorem dedupGo_invariant :
    ∀ (items : List Item) (sigs : List (Finset Str)),
      (∀ a ∈ dedupGo sigs items, ∀ s ∈ sigs,
          jaccard (signatureOf a) s < SIMPLE_DUP_JACCARD) ∧
      List.Pairwise
        (fun a b => jaccard (signatureOf a) (signatureOf b) < SIMPLE_DUP_JACCARD)
        (dedupGo sigs items) := by
  intro items
  induction items with
  | nil =>
      intro sigs
      constructor
      · intro a ha; simp [dedupGo] at ha
      · simp [dedupGo]
  | cons it rest ih =>
      intro sigs
      by_cases hblock : sigs.any
          (fun sj => decide (SIMPLE_DUP_JACCARD ≤ jaccard (signatureOf it) sj)) = true
      · have hstep : dedupGo sigs (it :: rest) = dedupGo sigs rest := by
          simp [dedupGo, hblock]
        rw [hstep]
        exact ih sigs
      · have hfalse : sigs.any
            (fun sj => decide (SIMPLE_DUP_JACCARD ≤ jaccard (signatureOf it) sj)) = false :=
          Bool.eq_false_iff.mpr hblock
        have hstep : dedupGo sigs (it :: rest) =
            it :: dedupGo (sigs ++ [signatureOf it]) rest := by
          simp [dedupGo, hfalse]
        have hlt := any_ge_false_forall hfalse
        have ihall := (ih (sigs ++ [signatureOf it])).1
        have ihpw := (ih (sigs ++ [signatureOf it])).2
        rw [hstep]
        constructor
        · intro a ha s hs
          rcases List.mem_cons.mp ha with h1 | h1
          · subst h1; exact hlt s hs
          · exact ihall a h1 s (List.mem_append_left _ hs)
        · refine List.Pairwise.cons ?_ ihpw
          intro b hb
          have hba := ihall b hb (signatureOf it) (by simp)
          rw [jaccard_comm]
          exact hba

/-- Claim C9: any two items surviving `simple_dedup` have signatures whose
Jaccard similarity is strictly below the 0.7 threshold. -/
theorem c9_output_pairwise_dissimilar (items : List Item) :
    List.Pairwise
      (fun a b => jaccard (signatureOf a) (signatureOf b) < SIMPLE_DUP_JACCARD)
      (simpleDedup items) :=
  (dedupGo_invariant items []).2

/-- Dropping the non-space prefix of a list that contains a space lands
exactly on its first space. -/
theorem dropWhile_space_split :
    ∀ (l : Str), ' ' ∈ l →
      ∃ pre rest, l = pre ++ ' ' :: rest ∧
        l.dropWhile (fun c => c != ' ') = ' ' :: rest := by
  intro l
  induction l with
  | nil => intro h; simp at h
  | cons c cs ih =>
      intro h
      by_cases hc : c = ' '
      · subst hc
        exact ⟨[], cs, rfl, by simp [List.dropWhile]⟩
      · have hmem : ' ' ∈ cs := by
          rcases List.mem_cons.mp h with h1 | h1
          · exact absurd h1.symm hc
          · exact h1
        rcases ih hmem with ⟨pre, rest, hl, hd⟩
        refine ⟨c :: pre, rest, by rw [List.cons_append, ← hl], ?_⟩
        rw [List.dropWhile_cons]
        simp only [bne_iff_ne, ne_eq, hc, not_false_eq_true, if_true]
        exact hd

/-- When the prefix contains a space, `rsplitLast1` returns everything
strictly before the last space: the original splits as result, a space,
and a tail. -/
theorem rsplitLast1_split (p : Str) (h : p.contains ' ' = true) :
    ∃ tl, p = rsplitLast1 p ++ ' ' :: tl := by
  have hm : ' ' ∈ p.reverse := by
    rw [List.mem_reverse]
    exact List.mem_of_elem_eq_true h
  rcases dropWhile_space_split p.reverse hm with ⟨pre, rest, hl, hd⟩
  have hrs : rsplitLast1 p = rest.reverse := by
    rw [rsplitLast1, if_pos h, hd]
    simp
  refine ⟨pre.reverse, ?_⟩
  rw [hrs]
  conv_lhs => rw [← List.reverse_reverse p, hl]
  simp

/-- The cut kept by `rsplitLast1` is strictly shorter than its input when
the input contains a space. -/
theorem rsplitLast1_length_lt (p : Str) (h : p.contains ' ' = true) :
    (rsplitLast1 p).length < p.length := by
  rcases rsplitLast1_split p h with ⟨tl, hp⟩
  conv_rhs => rw [hp]
  simp [List.length_append]

/-- Claim C1 counterexample input: a kept item whose 1501-character title
has no space at all. -/
def c1Item : Item :=
  ⟨List.replicate 1501 'a', ("http://x.test/cex" : String).data, [], [], [], none⟩

set_option maxRecDepth 100000 in
/-- Claim C1 counterexample: on a selected text of 1501 characters with no
space, `to_triplets` emits a record of 1501 characters — the cap-length
prefix has no word boundary to back up to, and appending the ellipsis
pushes the text one character past the 1500-character cap, refuting
"the text field's length never exceeds the cap". -/
theorem c1_truncation_counterexample :
    ((toTriplets [c1Item]).map (fun tr => tr.text.length) = [1501]) ∧
      ¬ (1501 ≤ MAX_TEXT_PER_ITEM) := by
  constructor
  · decide
  · decide

/-- Claim C1 as amended: when the selected text exceeds the cap the record
text is the cap-length prefix cut at its last space with an ellipsis
appended; if that prefix contains a space the result stays within the cap
and ends exactly at a word boundary, but if the prefix has no space at all
the whole prefix is kept and the result is one character over the cap. -/
theorem c1_truncation_amended (it : Item)
    (h : MAX_TEXT_PER_ITEM < (selectText it).length) :
    ((toTriplets [it]).map Triple.text = [truncateText (selectText it)]) ∧
    truncateText (selectText it) =
      rsplitLast1 ((selectText it).take MAX_TEXT_PER_ITEM) ++ [('…' : Char)] ∧
    (((selectText it).take MAX_TEXT_PER_ITEM).contains ' ' = true →
      (truncateText (selectText it)).length ≤ MAX_TEXT_PER_ITEM ∧
      ∃ tl, (selectText it).take MAX_TEXT_PER_ITEM =
        rsplitLast1 ((selectText it).take MAX_TEXT_PER_ITEM) ++ ' ' :: tl) ∧
    (((selectText it).take MAX_TEXT_PER_ITEM).contains ' ' = false →
      (truncateText (selectText it)).length = MAX_TEXT_PER_ITEM + 1) := by
  have hplen : ((selectText it).take MAX_TEXT_PER_ITEM).length = MAX_TEXT_PER_ITEM := by
    simp [List.length_take]
    omega
  have htr : truncateText (selectText it) =
      rsplitLast1 ((selectText it).take MAX_TEXT_PER_ITEM) ++ [('…' : Char)] := by
    rw [truncateText, if_pos h]
  refine ⟨by simp [toTriplets], htr, ?_, ?_⟩
  · intro hc
    constructor
    · have hlt := rsplitLast1_length_lt _ hc
      rw [hplen] at hlt
      rw [htr]
      simp [List.length_append]
      omega
    · exact rsplitLast1_split _ hc
  · intro hc
    rw [htr, rsplitLast1, if_neg (by rw [hc]; simp)]
    simp [List.length_append, hplen]

/-- Claim C1 witness input: a kept item whose 1601-character title has a
space inside the cap-length prefix. -/
def c1SpacedItem : Item :=
  ⟨List.replicate 1400 'a' ++ ' ' :: List.replicate 200 'b',
   ("http://x.test/w" : String).data, [], [], [], none⟩

set_option maxRecDepth 100000 in
/-- Claim C1 witness: on the spaced over-cap item the truncated record text
stays within the cap. -/
theorem c1_truncation_amended_witness :
    (truncateText (selectText c1SpacedItem)).length ≤ MAX_TEXT_PER_ITEM :=
  ((c1_truncation_amended c1SpacedItem (by decide)).2.2.1 (by decide)).1

/-- Claim C10 witness: a concrete one-item input keeps its first item. -/
theorem c10_first_item_kept_witness :
    (simpleDedup [c5Item]).head? = ([c5Item] : List Item).head? ∧
      simpleDedup [c5Item] ≠ [] :=
  c10_first_item_kept [c5Item] (by decide)
